import Mathlib

/-!
Shallow embedding of the page-layout and registration-mark engine of the
print-proxy-prep repository (`src/pdf_utils.py`, duplicated in `src/main.py`).

The embedded core is `pdf_gen` (the layout planner: grid arithmetic, page
breaks, and mark emission) and `draw_cross` (the mark renderer).  Numeric
values are modelled with `ℚ`; card repeat counts are `ℕ` (the data model and
the GUI clamp counts to non-negative integers).  Drawing calls on the
reportlab canvas become an explicit event list; the `ZeroDivisionError`
Python raises from `divmod(i, 0)` becomes `Except.error`.  File paths, the
popup, and the PDF file itself are external side effects outside the core
and are not modelled.
-/

/-- Card width in points: `2.48 * 72` (src/pdf_utils.py line 61). -/
def cardW : ℚ := (248 / 100) * 72

/-- Card height in points: `3.46 * 72` (src/pdf_utils.py line 61). -/
def cardH : ℚ := (346 / 100) * 72

/-- Python's built-in `round`: round half to even (banker's rounding). -/
def pyRound (q : ℚ) : ℤ :=
  if q - ⌊q⌋ < 1 / 2 then ⌊q⌋
  else if 1 / 2 < q - ⌊q⌋ then ⌊q⌋ + 1
  else if ⌊q⌋ % 2 = 0 then ⌊q⌋ else ⌊q⌋ + 1

/-- The drawing instructions `pdf_gen` issues to the document writer:
`Place` is a `drawImage` call, `PageBreak` is `showPage`, and `MarkPage`
groups the nested `draw_cross` loop of one registration-mark emission,
carrying the list of cross centers in emission order. -/
inductive Event where
  | Place (img : String) (x y w h : ℚ)
  | PageBreak
  | MarkPage (points : List (ℚ × ℚ))
  deriving DecidableEq

/-- Checks whether an event is a `Place` (an image drawing call). -/
def Event.isPlace : Event → Bool
  | .Place _ _ _ _ _ => true
  | _ => false

/-- Checks whether an event is a `PageBreak` (`showPage`). -/
def Event.isBreak : Event → Bool
  | .PageBreak => true
  | _ => false

/-- Checks whether an event is a registration-mark emission. -/
def Event.isMark : Event → Bool
  | .MarkPage _ => true
  | _ => false

/-- The image reference of a `Place` event. -/
def Event.placeImg : Event → Option String
  | .Place img _ _ _ _ => some img
  | _ => none

/-- The project dictionary fields `pdf_gen` reads: the ordered `cards`
mapping (image reference to repeat count), the orientation string, and the
output file name. -/
structure Project where
  cards : List (String × ℕ)
  orient : String
  filename : String
  deriving DecidableEq

/-- The error `pdf_gen` can raise: Python's `ZeroDivisionError`, coming
from `divmod(i, pbreak)` when `pbreak == 0`. -/
inductive PdfError where
  | zeroDivision
  deriving DecidableEq

/-- The per-render geometry computed at the top of `pdf_gen`:
`cols, rows = int(pw // w), int(ph // h)`, the centering margins
`rx, ry`, the total card count, and `pbreak = cols * rows`. -/
structure Layout where
  cols : ℕ
  rows : ℕ
  pbreak : ℕ
  total : ℕ
  rx : ℚ
  ry : ℚ

/-- `x_idx` of `y_idx, x_idx = divmod(j, cols)` where `j = i % pbreak`. -/
def x_idx (L : Layout) (i : ℕ) : ℕ := i % L.pbreak % L.cols

/-- `y_idx` of `y_idx, x_idx = divmod(j, cols)` where `j = i % pbreak`. -/
def y_idx (L : Layout) (i : ℕ) : ℕ := i % L.pbreak / L.cols

/-- The cross centers of one mark emission, in the order of the nested
loop `for cy in range(rows + 1): for cx in range(cols + 1):
draw_cross(pages, rx + w * cx, ry + h * cy)`. -/
def gridPoints (L : Layout) : List (ℚ × ℚ) :=
  (List.range (L.rows + 1)).flatMap fun (cy : ℕ) =>
    (List.range (L.cols + 1)).map fun (cx : ℕ) =>
      (L.rx + cardW * (cx : ℚ), L.ry + cardH * (cy : ℚ))

/-- The events of one iteration of the inner loop of `pdf_gen` at running
index `i`: an optional `showPage`, the `drawImage` call, and an optional
mark emission. -/
def stepEvents (L : Layout) (i : ℕ) (img : String) : List Event :=
  (if i % L.pbreak = 0 ∧ 0 < i then [Event.PageBreak] else []) ++
  [Event.Place img ((x_idx L i : ℚ) * cardW + L.rx) ((y_idx L i : ℚ) * cardH + L.ry) cardW cardH] ++
  (if i % L.pbreak = L.pbreak - 1 ∨ i = L.total - 1 then [Event.MarkPage (gridPoints L)] else [])

/-- The event list of the whole loop, starting at running index `i`:
one `stepEvents` chunk per flattened card. -/
def emitList (L : Layout) : ℕ → List String → List Event
  | _, [] => []
  | i, img :: rest => stepEvents L i img ++ emitList L (i + 1) rest

/-- The loop of `pdf_gen`, with the `ZeroDivisionError` that
`divmod(i, pbreak)` raises when `pbreak = 0` made explicit.  The division
happens before any drawing of the iteration, so the error carries no
events. -/
def loopCards (L : Layout) : ℕ → List String → Except PdfError (List Event)
  | _, [] => Except.ok []
  | i, img :: rest =>
    if L.pbreak = 0 then Except.error PdfError.zeroDivision
    else
      match loopCards L (i + 1) rest with
      | Except.error e => Except.error e
      | Except.ok tail => Except.ok (stepEvents L i img ++ tail)

/-- `cards` flattened in insertion order, each image repeated its count
times contiguously (the two nested `for` loops of `pdf_gen`). -/
def flatten (cards : List (String × ℕ)) : List String :=
  cards.flatMap fun c => List.replicate c.2 c.1

/-- `size = tuple(size[::-1]) if rotate else size`: page width and height,
swapped when the orientation is Landscape. -/
def pageDims (p : Project) (size : ℚ × ℚ) : ℚ × ℚ :=
  if p.orient = "Landscape" then (size.2, size.1) else size

/-- The geometry block of `pdf_gen` (src/pdf_utils.py lines 62-73). -/
def layoutOf (p : Project) (size : ℚ × ℚ) : Layout :=
  let pw := (pageDims p size).1
  let ph := (pageDims p size).2
  let cols := (⌊pw / cardW⌋).toNat
  let rows := (⌊ph / cardH⌋).toNat
  { cols := cols
    rows := rows
    pbreak := cols * rows
    total := (p.cards.map Prod.snd).sum
    rx := ((pyRound ((pw - cardW * (cols : ℚ)) / 2) : ℤ) : ℚ)
    ry := ((pyRound ((ph - cardH * (rows : ℚ)) / 2) : ℤ) : ℚ) }

/-- The planner `pdf_gen` (src/pdf_utils.py lines 50-94): computes the
geometry and runs the placement loop over the flattened card sequence. -/
def pdf_gen (p : Project) (size : ℚ × ℚ) : Except PdfError (List Event) :=
  loopCards (layoutOf p size) 0 (flatten p.cards)

/-- Grid columns for a project and page size. -/
def colsOf (p : Project) (size : ℚ × ℚ) : ℕ := (layoutOf p size).cols

/-- Grid rows for a project and page size. -/
def rowsOf (p : Project) (size : ℚ × ℚ) : ℕ := (layoutOf p size).rows

/-- Horizontal centering margin for a project and page size. -/
def rxOf (p : Project) (size : ℚ × ℚ) : ℚ := (layoutOf p size).rx

/-- Vertical centering margin for a project and page size. -/
def ryOf (p : Project) (size : ℚ × ℚ) : ℚ := (layoutOf p size).ry

/-- `total_cards = sum(img_dict.values())`. -/
def totalOf (p : Project) : ℕ := (p.cards.map Prod.snd).sum

/-- `pbreak = cols * rows`: cards per page. -/
def pbreakOf (p : Project) (size : ℚ × ℚ) : ℕ := colsOf p size * rowsOf p size

/-! ### Mark renderer (`draw_cross`) -/

/-- The graphics state of the reportlab canvas that `draw_cross` touches:
line width, dash pattern with phase, and stroke color. -/
structure CanvasState where
  lineWidth : ℚ
  dash : List ℚ × ℚ
  strokeColor : ℚ × ℚ × ℚ
  deriving DecidableEq

/-- A stroked segment recorded by a `can.line` call, together with the
graphics state in force when it was drawn. -/
structure Seg where
  x1 : ℚ
  y1 : ℚ
  x2 : ℚ
  y2 : ℚ
  color : ℚ × ℚ × ℚ
  width : ℚ
  dash : List ℚ × ℚ
  deriving DecidableEq

/-- The color passed by `setStrokeColorRGB(255, 255, 255)`. -/
def white : ℚ × ℚ × ℚ := (255, 255, 255)

/-- The color passed by `setStrokeColorRGB(0, 0, 0)`. -/
def black : ℚ × ℚ × ℚ := (0, 0, 0)

/-- A solid line in reportlab: empty dash array, phase 0. -/
def solidDash : List ℚ × ℚ := ([], 0)

/-- Canvas defaults before any call: width 1, solid stroke, black. -/
def initCanvas : CanvasState :=
  { lineWidth := 1, dash := solidDash, strokeColor := black }

/-- A `can.line(x1, y1, x2, y2)` call under graphics state `st`. -/
def lineSeg (st : CanvasState) (x1 y1 x2 y2 : ℚ) : Seg :=
  { x1 := x1, y1 := y1, x2 := x2, y2 := y2,
    color := st.strokeColor, width := st.lineWidth, dash := st.dash }

/-- Default half-length of a cross (`c: int = 6` in `draw_cross`). -/
def crossHalfDefault : ℚ := 6

/-- Default stroke width of a cross (`s: int = 1` in `draw_cross`). -/
def crossStrokeDefault : ℚ := 1

/-- `draw_cross` (src/pdf_utils.py lines 25-47): sets width, dash `[s, s]`
and colors, and draws four segments; returns the final graphics state and
the drawn segments in order.  `setDash(dash)` leaves phase 0;
`setDash(dash, s)` sets phase `s`; the dash array is never cleared. -/
def draw_cross (st0 : CanvasState) (x y c s : ℚ) : CanvasState × List Seg :=
  let st1 := { st0 with lineWidth := s }
  let st2 := { st1 with dash := ([s, s], 0) }
  let st3 := { st2 with strokeColor := white }
  let seg1 := lineSeg st3 x (y - c) x (y + c)
  let st4 := { st3 with strokeColor := black }
  let seg2 := lineSeg st4 (x - c) y (x + c) y
  let st5 := { st4 with dash := ([s, s], s) }
  let st6 := { st5 with strokeColor := white }
  let seg3 := lineSeg st6 (x - c) y (x + c) y
  let st7 := { st6 with strokeColor := black }
  let seg4 := lineSeg st7 x (y - c) x (y + c)
  (st7, [seg1, seg2, seg3, seg4])

deriving instance DecidableEq for Except

/-! ### Basic structural lemmas -/

lemma flatten_nil : flatten [] = [] := rfl

lemma flatten_cons (c : String × ℕ) (rest : List (String × ℕ)) :
    flatten (c :: rest) = List.replicate c.2 c.1 ++ flatten rest := by
  simp [flatten]

lemma flatten_length (cards : List (String × ℕ)) :
    (flatten cards).length = (cards.map Prod.snd).sum := by
  induction cards with
  | nil => rfl
  | cons c rest ih => simp [flatten_cons, List.length_replicate, ih]

/-- The drawing call recorded by one loop iteration. -/
def placeEvt (L : Layout) (i : ℕ) (img : String) : Event :=
  Event.Place img ((x_idx L i : ℚ) * cardW + L.rx) ((y_idx L i : ℚ) * cardH + L.ry) cardW cardH

lemma stepEvents_eq (L : Layout) (i : ℕ) (img : String) :
    stepEvents L i img =
      (if i % L.pbreak = 0 ∧ 0 < i then [Event.PageBreak] else []) ++
      [placeEvt L i img] ++
      (if i % L.pbreak = L.pbreak - 1 ∨ i = L.total - 1 then [Event.MarkPage (gridPoints L)] else []) := rfl

lemma stepEvents_filter_isPlace (L : Layout) (i : ℕ) (img : String) :
    (stepEvents L i img).filter Event.isPlace = [placeEvt L i img] := by
  rw [stepEvents_eq]
  split_ifs <;> simp [Event.isPlace, placeEvt]

lemma stepEvents_filterMap_placeImg (L : Layout) (i : ℕ) (img : String) :
    (stepEvents L i img).filterMap Event.placeImg = [img] := by
  rw [stepEvents_eq]
  split_ifs <;> simp [Event.placeImg, placeEvt]

lemma stepEvents_countP_isBreak (L : Layout) (i : ℕ) (img : String) :
    (stepEvents L i img).countP Event.isBreak =
      if i % L.pbreak = 0 ∧ 0 < i then 1 else 0 := by
  rw [stepEvents_eq]
  split_ifs <;> simp [Event.isBreak, placeEvt, List.countP_append, List.countP_cons]

lemma stepEvents_countP_isMark (L : Layout) (i : ℕ) (img : String) :
    (stepEvents L i img).countP Event.isMark =
      if i % L.pbreak = L.pbreak - 1 ∨ i = L.total - 1 then 1 else 0 := by
  rw [stepEvents_eq]
  split_ifs <;> simp [Event.isMark, placeEvt, List.countP_append, List.countP_cons]

lemma loopCards_ok (L : Layout) (hm : L.pbreak ≠ 0) :
    ∀ (l : List String) (i : ℕ), loopCards L i l = Except.ok (emitList L i l) := by
  intro l
  induction l with
  | nil => intro i; rfl
  | cons a rest ih =>
    intro i
    simp only [loopCards, emitList, if_neg hm, ih (i + 1)]

lemma loopCards_zeroDiv (L : Layout) (hm : L.pbreak = 0) (i : ℕ) (a : String) (l : List String) :
    loopCards L i (a :: l) = Except.error PdfError.zeroDivision := by
  simp only [loopCards, if_pos hm]

/-- A successful run is either on an empty flattened sequence, or has a
positive `pbreak` and is the chunk concatenation `emitList`. -/
lemma pdf_gen_ok_cases (p : Project) (size : ℚ × ℚ) (es : List Event)
    (h : pdf_gen p size = Except.ok es) :
    (flatten p.cards = [] ∧ es = []) ∨
      ((layoutOf p size).pbreak ≠ 0 ∧ es = emitList (layoutOf p size) 0 (flatten p.cards)) := by
  by_cases hm : (layoutOf p size).pbreak = 0
  · cases hf : flatten p.cards with
    | nil =>
      left
      refine ⟨rfl, ?_⟩
      rw [pdf_gen, hf] at h
      simpa [loopCards] using h.symm
    | cons a l =>
      rw [pdf_gen, hf, loopCards_zeroDiv _ hm] at h
      cases h
  · right
    refine ⟨hm, ?_⟩
    rw [pdf_gen, loopCards_ok _ hm] at h
    cases h
    rfl

/-! ### Place events: count, order, positions -/

lemma emitList_filterMap_placeImg (L : Layout) :
    ∀ (l : List String) (i : ℕ), (emitList L i l).filterMap Event.placeImg = l := by
  intro l
  induction l with
  | nil => intro i; rfl
  | cons a rest ih =>
    intro i
    simp [emitList, List.filterMap_append, stepEvents_filterMap_placeImg, ih (i + 1)]

lemma emitList_filter_isPlace_length (L : Layout) :
    ∀ (l : List String) (i : ℕ), ((emitList L i l).filter Event.isPlace).length = l.length := by
  intro l
  induction l with
  | nil => intro i; rfl
  | cons a rest ih =>
    intro i
    rw [emitList, List.filter_append, stepEvents_filter_isPlace]
    simp [ih (i + 1)]

lemma emitList_places_get? (L : Layout) :
    ∀ (l : List String) (i k : ℕ),
      ((emitList L i l).filter Event.isPlace).get? k =
        (l.get? k).map fun img => placeEvt L (i + k) img := by
  intro l
  induction l with
  | nil => intro i k; simp [emitList]
  | cons a rest ih =>
    intro i k
    rw [emitList, List.filter_append, stepEvents_filter_isPlace]
    cases k with
    | zero => simp
    | succ k =>
      simp only [List.singleton_append, List.get?_cons_succ, ih rest.length.succ]
      rw [ih (i + 1) k]
      have h : i + 1 + k = i + (k + 1) := by omega
      rw [h]

/-! ### Mark events carry exactly the nominal grid -/

lemma stepEvents_mark_mem (L : Layout) (i : ℕ) (img : String) (pts : List (ℚ × ℚ))
    (h : Event.MarkPage pts ∈ stepEvents L i img) : pts = gridPoints L := by
  rw [stepEvents_eq] at h
  rcases List.mem_append.1 h with h1 | h2
  · rcases List.mem_append.1 h1 with h3 | h4
    · split_ifs at h3 <;> simp_all
    · simp [placeEvt] at h4
  · split_ifs at h2 <;> simp_all

lemma emitList_mark_mem (L : Layout) :
    ∀ (l : List String) (i : ℕ) (pts : List (ℚ × ℚ)),
      Event.MarkPage pts ∈ emitList L i l → pts = gridPoints L := by
  intro l
  induction l with
  | nil => intro i pts h; simp [emitList] at h
  | cons a rest ih =>
    intro i pts h
    rw [emitList] at h
    rcases List.mem_append.1 h with h1 | h2
    · exact stepEvents_mark_mem L i a pts h1
    · exact ih (i + 1) pts h2

/-! ### Division and counting arithmetic -/

lemma dvd_succ_iff_mod_pred (m s : ℕ) (hm : 0 < m) : m ∣ s + 1 ↔ s % m = m - 1 := by
  have hr : s % m < m := Nat.mod_lt _ hm
  constructor
  · intro hdvd
    have h1 : (s + 1) % m = 0 := Nat.dvd_iff_mod_eq_zero.1 hdvd
    rw [Nat.add_mod] at h1
    rcases Nat.lt_or_ge m 2 with hm2 | hm2
    · omega
    · rw [Nat.mod_eq_of_lt (show 1 < m by omega)] at h1
      rcases Nat.lt_or_ge (s % m + 1) m with hlt | hge
      · rw [Nat.mod_eq_of_lt hlt] at h1
        omega
      · omega
  · intro hmod
    have hd := Nat.div_add_mod s m
    refine ⟨s / m + 1, ?_⟩
    have hB : m * (s / m + 1) = m * (s / m) + m := by ring
    omega

lemma succ_div_eq (m s : ℕ) : (s + 1) / m = s / m + if m ∣ s + 1 then 1 else 0 := by
  rw [Nat.succ_div]

lemma ceil_div_eq (m T : ℕ) (hm : 0 < m) (hT : 0 < T) :
    T / m + (if m ∣ T then 0 else 1) = (T + m - 1) / m := by
  have hd := Nat.div_add_mod T m
  have hr : T % m < m := Nat.mod_lt _ hm
  by_cases hdvd : m ∣ T
  · have hr0 : T % m = 0 := Nat.dvd_iff_mod_eq_zero.1 hdvd
    rw [if_pos hdvd]
    have he : T + m - 1 = m * (T / m) + (m - 1) := by omega
    rw [he, Nat.mul_add_div hm, Nat.div_eq_of_lt (show m - 1 < m by omega)]
  · have hr0 : 0 < T % m := by
      rcases Nat.eq_zero_or_pos (T % m) with h0 | h0
      · exact absurd (Nat.dvd_iff_mod_eq_zero.2 h0) hdvd
      · exact h0
    rw [if_neg hdvd]
    have hB : m * (T / m + 1) = m * (T / m) + m := by ring
    have he : T + m - 1 = m * (T / m + 1) + (T % m - 1) := by omega
    rw [he, Nat.mul_add_div hm, Nat.div_eq_of_lt (show T % m - 1 < m by omega)]

lemma emitList_countP_isBreak (L : Layout) :
    ∀ (l : List String) (s : ℕ),
      (s - 1) / L.pbreak + (emitList L s l).countP Event.isBreak =
        (s + l.length - 1) / L.pbreak := by
  intro l
  induction l with
  | nil => intro s; simp [emitList]
  | cons a rest ih =>
    intro s
    rw [emitList, List.countP_append, stepEvents_countP_isBreak]
    have ihs := ih (s + 1)
    have hstep : (s - 1) / L.pbreak + (if s % L.pbreak = 0 ∧ 0 < s then 1 else 0) =
        (s + 1 - 1) / L.pbreak := by
      rcases Nat.eq_zero_or_pos s with h0 | h0
      · subst h0; simp
      · have hsd : (s - 1) + 1 = s := by omega
        have h1 : ((s - 1) + 1) / L.pbreak =
            (s - 1) / L.pbreak + if L.pbreak ∣ (s - 1) + 1 then 1 else 0 :=
          succ_div_eq L.pbreak (s - 1)
        rw [hsd] at h1
        have h2 : L.pbreak ∣ s ↔ s % L.pbreak = 0 := Nat.dvd_iff_mod_eq_zero
        simp only [Nat.add_sub_cancel]
        by_cases hc : s % L.pbreak = 0
        · rw [if_pos ⟨hc, h0⟩, h1, if_pos (h2.2 hc)]
        · rw [h1, if_neg (fun hd => hc (h2.1 hd))]
          simp [hc]
    simp only [Nat.add_sub_cancel] at ihs hstep
    simp only [List.length_cons]
    have harr : s + (rest.length + 1) - 1 = s + 1 + rest.length - 1 := by omega
    rw [harr]
    omega

lemma emitList_countP_isMark (L : Layout) (hm : 0 < L.pbreak) :
    ∀ (l : List String) (s : ℕ), s + l.length ≤ L.total →
      s / L.pbreak + (emitList L s l).countP Event.isMark =
        (s + l.length) / L.pbreak +
          (if s + l.length = L.total ∧ 0 < l.length ∧ ¬ L.pbreak ∣ L.total then 1 else 0) := by
  intro l
  induction l with
  | nil =>
    intro s hs
    simp [emitList]
  | cons a rest ih =>
    intro s hs
    simp only [List.length_cons] at hs ⊢
    rw [emitList, List.countP_append, stepEvents_countP_isMark]
    have ihs := ih (s + 1) (by omega)
    have hsucc : (s + 1) / L.pbreak = s / L.pbreak + if L.pbreak ∣ s + 1 then 1 else 0 :=
      succ_div_eq L.pbreak s
    have hmodiff : L.pbreak ∣ s + 1 ↔ s % L.pbreak = L.pbreak - 1 :=
      dvd_succ_iff_mod_pred L.pbreak s hm
    have harr : s + 1 + rest.length = s + (rest.length + 1) := by omega
    rw [harr] at ihs
    simp only [hmodiff] at hsucc
    rcases Nat.eq_zero_or_pos rest.length with hC | hC
    · -- last chunk: the tail contributes nothing
      have hrest : rest = [] := List.length_eq_zero.1 hC
      subst hrest
      simp only [emitList, List.countP_nil, List.length_nil, Nat.add_zero] at ihs ⊢
      simp only [Nat.zero_add] at ihs ⊢
      by_cases hB : s = L.total - 1
      · have hsT : s + 1 = L.total := by omega
        have hmc : s % L.pbreak = L.pbreak - 1 ∨ s = L.total - 1 := Or.inr hB
        by_cases hD : L.pbreak ∣ L.total
        · have hA : s % L.pbreak = L.pbreak - 1 := hmodiff.1 (hsT ▸ hD)
          rw [if_pos hA] at hsucc
          have hnc2 : ¬ (s + 1 = L.total ∧ 0 < 1 ∧ ¬ L.pbreak ∣ L.total) := by
            rintro ⟨-, -, h3⟩
            exact h3 hD
          rw [if_pos hmc, if_neg hnc2]
          omega
        · have hA : ¬ s % L.pbreak = L.pbreak - 1 := by
            intro hA
            exact hD (hsT ▸ hmodiff.2 hA)
          rw [if_neg hA] at hsucc
          have hc2 : s + 1 = L.total ∧ 0 < 1 ∧ ¬ L.pbreak ∣ L.total := ⟨hsT, Nat.one_pos, hD⟩
          rw [if_pos hmc, if_pos hc2]
          omega
      · have hsT : ¬ s + 1 = L.total := by omega
        have hnc2 : ¬ (s + 1 = L.total ∧ 0 < 1 ∧ ¬ L.pbreak ∣ L.total) := fun hcon => hsT hcon.1
        by_cases hA : s % L.pbreak = L.pbreak - 1
        · rw [if_pos hA] at hsucc
          have hmc : s % L.pbreak = L.pbreak - 1 ∨ s = L.total - 1 := Or.inl hA
          rw [if_pos hmc, if_neg hnc2]
          omega
        · rw [if_neg hA] at hsucc
          have hnmc : ¬ (s % L.pbreak = L.pbreak - 1 ∨ s = L.total - 1) := by
            rintro (h1 | h2)
            · exact hA h1
            · exact hB h2
          rw [if_neg hnmc, if_neg hnc2]
          omega
    · -- a longer tail: the global-last disjunct cannot fire here
      have hB : ¬ s = L.total - 1 := by omega
      have hc12 : (s + (rest.length + 1) = L.total ∧ 0 < rest.length ∧ ¬ L.pbreak ∣ L.total) ↔
          (s + (rest.length + 1) = L.total ∧ 0 < rest.length + 1 ∧ ¬ L.pbreak ∣ L.total) := by
        constructor <;> rintro ⟨h1, h2, h3⟩ <;> exact ⟨h1, by omega, h3⟩
      rw [if_congr hc12 rfl rfl] at ihs
      by_cases hc2 : s + (rest.length + 1) = L.total ∧ 0 < rest.length + 1 ∧ ¬ L.pbreak ∣ L.total
      · rw [if_pos hc2] at ihs ⊢
        by_cases hA : s % L.pbreak = L.pbreak - 1
        · rw [if_pos hA] at hsucc
          rw [if_pos (Or.inl hA : s % L.pbreak = L.pbreak - 1 ∨ s = L.total - 1)]
          omega
        · rw [if_neg hA] at hsucc
          have hnmc : ¬ (s % L.pbreak = L.pbreak - 1 ∨ s = L.total - 1) := by
            rintro (h1 | h2)
            · exact hA h1
            · exact hB h2
          rw [if_neg hnmc]
          omega
      · rw [if_neg hc2] at ihs ⊢
        by_cases hA : s % L.pbreak = L.pbreak - 1
        · rw [if_pos hA] at hsucc
          rw [if_pos (Or.inl hA : s % L.pbreak = L.pbreak - 1 ∨ s = L.total - 1)]
          omega
        · rw [if_neg hA] at hsucc
          have hnmc : ¬ (s % L.pbreak = L.pbreak - 1 ∨ s = L.total - 1) := by
            rintro (h1 | h2)
            · exact hA h1
            · exact hB h2
          rw [if_neg hnmc]
          omega

/-! ### Event ordering within the emitted sequence -/

lemma stepEvents_ne_nil (L : Layout) (i : ℕ) (img : String) : stepEvents L i img ≠ [] := by
  rw [stepEvents_eq]
  split_ifs <;> simp

lemma stepEvents_head? (L : Layout) (i : ℕ) (img : String) :
    (stepEvents L i img).head? =
      some (if i % L.pbreak = 0 ∧ 0 < i then Event.PageBreak else placeEvt L i img) := by
  rw [stepEvents_eq]
  split_ifs <;> rfl

lemma stepEvents_getLast? (L : Layout) (i : ℕ) (img : String) :
    (stepEvents L i img).getLast? =
      some (if i % L.pbreak = L.pbreak - 1 ∨ i = L.total - 1 then Event.MarkPage (gridPoints L)
            else placeEvt L i img) := by
  rw [stepEvents_eq]
  split_ifs <;> rfl

lemma stepEvents_chain_mark (L : Layout) (i : ℕ) (img : String) :
    List.Chain' (fun a b => a.isMark = true → b = Event.PageBreak) (stepEvents L i img) := by
  rw [stepEvents_eq]
  split_ifs <;> simp [List.chain'_cons, Event.isMark, placeEvt]

lemma stepEvents_chain_break (L : Layout) (i : ℕ) (img : String) :
    List.Chain' (fun a b => a = Event.PageBreak → b.isPlace = true) (stepEvents L i img) := by
  rw [stepEvents_eq]
  split_ifs <;> simp [List.chain'_cons, Event.isPlace, placeEvt]

lemma emitList_cons_ne_nil (L : Layout) (i : ℕ) (a : String) (l : List String) :
    emitList L i (a :: l) ≠ [] := by
  rw [emitList]
  intro hcon
  exact stepEvents_ne_nil L i a (List.append_eq_nil.1 hcon).1

/-- A chunk that ends with a mark emission and is not globally last is a
full page, so the next chunk starts with a page break. -/
lemma mark_then_break (L : Layout) (hm : 0 < L.pbreak) (s : ℕ) (b : String)
    (l2 : List String) (hlast : s + 1 < L.total)
    (hmark : s % L.pbreak = L.pbreak - 1 ∨ s = L.total - 1) :
    (emitList L (s + 1) (b :: l2)).head? = some Event.PageBreak := by
  have hA : s % L.pbreak = L.pbreak - 1 := by
    rcases hmark with h1 | h2
    · exact h1
    · omega
  have hdvd : L.pbreak ∣ s + 1 := (dvd_succ_iff_mod_pred L.pbreak s hm).2 hA
  have hmod : (s + 1) % L.pbreak = 0 := Nat.dvd_iff_mod_eq_zero.1 hdvd
  rw [emitList, List.head?_append_of_ne_nil _ (stepEvents_ne_nil L (s + 1) b),
    stepEvents_head?, if_pos ⟨hmod, Nat.succ_pos s⟩]

lemma emitList_chain_mark (L : Layout) (hm : 0 < L.pbreak) :
    ∀ (l : List String) (s : ℕ), s + l.length ≤ L.total →
      List.Chain' (fun a b => a.isMark = true → b = Event.PageBreak) (emitList L s l) := by
  intro l
  induction l with
  | nil => intro s hs; exact List.chain'_nil
  | cons a rest ih =>
    intro s hs
    simp only [List.length_cons] at hs
    rw [emitList]
    apply List.Chain'.append (stepEvents_chain_mark L s a) (ih (s + 1) (by omega))
    intro x hx y hy
    rw [stepEvents_getLast?] at hx
    simp only [Option.mem_def, Option.some.injEq] at hx
    cases rest with
    | nil => simp [emitList] at hy
    | cons b rest2 =>
      by_cases hmark : s % L.pbreak = L.pbreak - 1 ∨ s = L.total - 1
      · rw [if_pos hmark] at hx
        subst hx
        intro _
        have hlast : s + 1 < L.total := by
          simp only [List.length_cons] at hs
          omega
        have := mark_then_break L hm s b rest2 hlast hmark
        rw [this] at hy
        simp only [Option.mem_def, Option.some.injEq] at hy
        exact hy.symm
      · rw [if_neg hmark] at hx
        subst hx
        intro habs
        simp [placeEvt, Event.isMark] at habs

lemma emitList_chain_break (L : Layout) :
    ∀ (l : List String) (s : ℕ),
      List.Chain' (fun a b => a = Event.PageBreak → b.isPlace = true) (emitList L s l) := by
  intro l
  induction l with
  | nil => intro s; exact List.chain'_nil
  | cons a rest ih =>
    intro s
    rw [emitList]
    apply List.Chain'.append (stepEvents_chain_break L s a) (ih (s + 1))
    intro x hx y hy
    rw [stepEvents_getLast?] at hx
    simp only [Option.mem_def, Option.some.injEq] at hx
    intro hxbreak
    subst hxbreak
    split_ifs at hx <;> simp [placeEvt] at hx

lemma emitList_getLast_mark (L : Layout) :
    ∀ (l : List String) (s : ℕ), l ≠ [] → s + l.length = L.total →
      (emitList L s l).getLast? = some (Event.MarkPage (gridPoints L)) := by
  intro l
  induction l with
  | nil => intro s hne; exact absurd rfl hne
  | cons a rest ih =>
    intro s hne hlen
    cases rest with
    | nil =>
      simp only [List.length_cons, List.length_nil] at hlen
      rw [emitList, emitList, List.append_nil, stepEvents_getLast?,
        if_pos (Or.inr (show s = L.total - 1 by omega))]
    | cons b rest2 =>
      rw [emitList, List.getLast?_append_of_ne_nil _ (emitList_cons_ne_nil L (s + 1) b rest2)]
      apply ih (s + 1) (by simp) ?_
      simp only [List.length_cons] at hlen ⊢
      omega

lemma emitList_head_place (L : Layout) (a : String) (l : List String) :
    (emitList L 0 (a :: l)).head? = some (placeEvt L 0 a) := by
  rw [emitList, List.head?_append_of_ne_nil _ (stepEvents_ne_nil L 0 a), stepEvents_head?,
    if_neg (by simp)]

/-! ### The nominal intersection grid -/

lemma cardW_ne_zero : cardW ≠ 0 := by norm_num [cardW]

lemma cardH_ne_zero : cardH ≠ 0 := by norm_num [cardH]

lemma gridPoints_length (L : Layout) :
    (gridPoints L).length = (L.rows + 1) * (L.cols + 1) := by
  rw [gridPoints, List.length_flatMap]
  simp [Function.comp_def, List.map_const', List.sum_replicate]

lemma gridPoints_mem (L : Layout) (q : ℚ × ℚ) :
    q ∈ gridPoints L ↔ ∃ cx cy : ℕ, cx ≤ L.cols ∧ cy ≤ L.rows ∧
      q = (L.rx + cardW * (cx : ℚ), L.ry + cardH * (cy : ℚ)) := by
  constructor
  · intro h
    simp only [gridPoints, List.mem_flatMap, List.mem_map, List.mem_range,
      Nat.lt_succ_iff] at h
    obtain ⟨cy, hcy, cx, hcx, hq⟩ := h
    exact ⟨cx, cy, hcx, hcy, hq.symm⟩
  · rintro ⟨cx, cy, hcx, hcy, rfl⟩
    simp only [gridPoints, List.mem_flatMap, List.mem_map, List.mem_range, Nat.lt_succ_iff]
    exact ⟨cy, hcy, cx, hcx, rfl⟩

lemma gridPoints_nodup (L : Layout) : (gridPoints L).Nodup := by
  rw [gridPoints, List.nodup_flatMap]
  constructor
  · intro cy _
    apply List.Nodup.map ?_ (List.nodup_range _)
    intro cx1 cx2 hq
    have h1 : L.rx + cardW * (cx1 : ℚ) = L.rx + cardW * (cx2 : ℚ) := congrArg Prod.fst hq
    have h2 : (cx1 : ℚ) = (cx2 : ℚ) := by
      have := add_left_cancel h1
      exact mul_left_cancel₀ cardW_ne_zero this
    exact_mod_cast h2
  · apply List.Pairwise.imp ?_ (List.pairwise_lt_range _)
    intro cy1 cy2 hlt q hq1 hq2
    simp only [List.mem_map, List.mem_range] at hq1 hq2
    obtain ⟨cx1, _, hq1⟩ := hq1
    obtain ⟨cx2, _, hq2⟩ := hq2
    have hy : L.ry + cardH * (cy1 : ℚ) = L.ry + cardH * (cy2 : ℚ) := by
      rw [← hq1] at hq2
      exact (congrArg Prod.snd hq2).symm
    have : (cy1 : ℚ) = (cy2 : ℚ) := mul_left_cancel₀ cardH_ne_zero (add_left_cancel hy)
    have : cy1 = cy2 := by exact_mod_cast this
    omega

/-! ### Zero-count entries are transparent -/

lemma flatten_filter_ne_zero (cards : List (String × ℕ)) :
    flatten (cards.filter fun c => c.2 != 0) = flatten cards := by
  induction cards with
  | nil => rfl
  | cons c rest ih =>
    by_cases hc : c.2 = 0
    · rw [flatten_cons, hc, List.replicate_zero, List.nil_append, ← ih]
      congr 1
      rw [List.filter_cons, if_neg (by simp [hc])]
    · rw [flatten_cons, ← ih, List.filter_cons, if_pos (by simp [hc]), flatten_cons]

lemma sum_filter_ne_zero (cards : List (String × ℕ)) :
    ((cards.filter fun c => c.2 != 0).map Prod.snd).sum = (cards.map Prod.snd).sum := by
  induction cards with
  | nil => rfl
  | cons c rest ih =>
    by_cases hc : c.2 = 0
    · rw [List.filter_cons, if_neg (by simp [hc])]
      simp [hc, ih]
    · rw [List.filter_cons, if_pos (by simp [hc])]
      simp [ih]

lemma layoutOf_filter (p : Project) (size : ℚ × ℚ) :
    layoutOf { p with cards := p.cards.filter fun c => c.2 != 0 } size = layoutOf p size := by
  simp [layoutOf, pageDims, sum_filter_ne_zero]

/-! ### Geometry bounds -/

lemma cols_pos_of_pbreak_pos (p : Project) (size : ℚ × ℚ) (hm : 0 < pbreakOf p size) :
    0 < colsOf p size := by
  rcases Nat.eq_zero_or_pos (colsOf p size) with h0 | h0
  · rw [pbreakOf, h0, Nat.zero_mul] at hm
    exact absurd hm (by omega)
  · exact h0

lemma layout_pbreak_eq (p : Project) (size : ℚ × ℚ) :
    (layoutOf p size).pbreak = pbreakOf p size := rfl

lemma layout_total_eq (p : Project) (size : ℚ × ℚ) : (layoutOf p size).total = totalOf p := rfl

lemma flatten_length_total (p : Project) : (flatten p.cards).length = totalOf p :=
  flatten_length p.cards

lemma flatten_nil_of_total_zero (p : Project) (h : totalOf p = 0) : flatten p.cards = [] := by
  rw [← List.length_eq_zero, flatten_length_total, h]

/-! ### Concrete fixtures used by witnesses and counterexamples -/

/-- A two-copy project on a 200x300-point page: the grid is one column by
one row, so the two copies land on two pages. -/
def wProj : Project := { cards := [("a.png", 2)], orient := "Portrait", filename := "x" }

/-- A 200x300-point page. -/
def wSize : ℚ × ℚ := (200, 300)

/-- The nominal intersection grid for `wProj` on `wSize`
(cols = rows = 1, margins 11 and 25). -/
def wGrid : List (ℚ × ℚ) :=
  [(11, 25), (11 + cardW, 25), (11, 25 + cardH), (11 + cardW, 25 + cardH)]

/-- The full event sequence of `pdf_gen wProj wSize`. -/
def wEvents : List Event :=
  [Event.Place "a.png" 11 25 cardW cardH, Event.MarkPage wGrid, Event.PageBreak,
   Event.Place "a.png" 11 25 cardW cardH, Event.MarkPage wGrid]

/-- A one-card project on a page smaller than a card: `cols = rows = 0`. -/
def wBad : Project := { cards := [("a.png", 1)], orient := "Portrait", filename := "" }

/-- A 100x100-point page, smaller than the 178.56x249.12-point card. -/
def wBadSize : ℚ × ℚ := (100, 100)

/-- A project whose entries all have repeat count zero. -/
def wZero : Project := { cards := [("a.png", 0), ("b.png", 0)], orient := "Portrait", filename := "" }

/-! ### Claim theorems -/

section ClaimTheorems

/- Batteries marks the `Rat` arithmetic operations `@[irreducible]`, which
blocks `decide` from evaluating the embedded planner on concrete inputs;
restore the default reducibility locally so concrete runs reduce. -/
attribute [local semireducible] Rat.mul Rat.add Rat.inv Rat.sub

/-- C1, counterexample: the claim quantifies over every project with total
count `N > 0`, but on a page smaller than the card (`cards_per_page = 0`)
`pdf_gen` raises a `ZeroDivisionError` and emits no `Place` event at all,
so it does not emit exactly `N = 1` of them. -/
theorem c1_counterexample :
    0 < totalOf wBad ∧ pdf_gen wBad wBadSize = Except.error PdfError.zeroDivision := by
  constructor
  · decide
  · decide

/-- C1 (amended): for every project whose repeat counts sum to `N > 0`
and whose geometry gives `cards_per_page > 0`, `pdf_gen` succeeds and
emits exactly `N` `Place` events whose image references are, in order,
the flattening of the cards mapping in insertion order with each card's
repetitions contiguous. -/
theorem c1_place_events (p : Project) (size : ℚ × ℚ)
    (hm : 0 < pbreakOf p size) (hN : 0 < totalOf p) :
    ∃ es, pdf_gen p size = Except.ok es ∧
      (es.filter Event.isPlace).length = totalOf p ∧
      es.filterMap Event.placeImg = flatten p.cards := by
  have hm2 : (layoutOf p size).pbreak ≠ 0 := by
    rw [layout_pbreak_eq]
    omega
  refine ⟨emitList (layoutOf p size) 0 (flatten p.cards), ?_, ?_, ?_⟩
  · rw [pdf_gen, loopCards_ok _ hm2]
  · rw [emitList_filter_isPlace_length, flatten_length_total]
  · exact emitList_filterMap_placeImg _ _ _

/-- Witness for C1 at `wProj` on `wSize`. -/
theorem c1_place_events_witness :
    (0 < pbreakOf wProj wSize ∧ 0 < totalOf wProj) ∧
      ∃ es, pdf_gen wProj wSize = Except.ok es ∧
        (es.filter Event.isPlace).length = totalOf wProj ∧
        es.filterMap Event.placeImg = flatten wProj.cards :=
  ⟨⟨by decide, by decide⟩, c1_place_events wProj wSize (by decide) (by decide)⟩

/-- C2: every `Place` event at running index `i` of the flattened
sequence is drawn at `(col * CW + margin_x, row * CH + margin_y)` with
size `(CW, CH)`, where `j = i mod (cols * rows)`, `row = j div cols`,
`col = j mod cols`, and the geometry (cols, rows, margins, orientation
swap) is as computed by the planner. -/
theorem c2_place_position (p : Project) (size : ℚ × ℚ) (es : List Event)
    (h : pdf_gen p size = Except.ok es) (i : ℕ) :
    (es.filter Event.isPlace).get? i =
      ((flatten p.cards).get? i).map fun img =>
        Event.Place img
          (((i % (colsOf p size * rowsOf p size) % colsOf p size : ℕ) : ℚ) * cardW + rxOf p size)
          (((i % (colsOf p size * rowsOf p size) / colsOf p size : ℕ) : ℚ) * cardH + ryOf p size)
          cardW cardH := by
  rcases pdf_gen_ok_cases p size es h with ⟨hf, rfl⟩ | ⟨hm, rfl⟩
  · rw [hf]
    simp
  · rw [emitList_places_get?]
    simp only [Nat.zero_add]
    rfl

/-- Witness for C2 at `wProj` on `wSize`, place index 1. -/
theorem c2_place_position_witness :
    pdf_gen wProj wSize = Except.ok wEvents ∧
      (wEvents.filter Event.isPlace).get? 1 =
        ((flatten wProj.cards).get? 1).map fun img =>
          Event.Place img
            (((1 % (colsOf wProj wSize * rowsOf wProj wSize) % colsOf wProj wSize : ℕ) : ℚ) * cardW +
              rxOf wProj wSize)
            (((1 % (colsOf wProj wSize * rowsOf wProj wSize) / colsOf wProj wSize : ℕ) : ℚ) * cardH +
              ryOf wProj wSize)
            cardW cardH :=
  ⟨by decide, c2_place_position wProj wSize wEvents (by decide) 1⟩

/-- C3: with `N > 0` cards and `cards_per_page > 0`, the planner succeeds
and emits exactly `ceil(N / cards_per_page)` mark emissions, and every
mark emission is either the last event or is immediately followed by the
`PageBreak` that opens the next page (hence it comes after all of its
page's `Place` events and before the next `PageBreak`). -/
theorem c3_markpage_events (p : Project) (size : ℚ × ℚ)
    (hN : 0 < totalOf p) (hm : 0 < pbreakOf p size) :
    ∃ es, pdf_gen p size = Except.ok es ∧
      (es.filter Event.isMark).length =
        (totalOf p + pbreakOf p size - 1) / pbreakOf p size ∧
      ∀ (k : ℕ) (hk : k < es.length), (es.get ⟨k, hk⟩).isMark = true →
        k + 1 = es.length ∨
          ∃ hk2 : k + 1 < es.length, es.get ⟨k + 1, hk2⟩ = Event.PageBreak := by
  have hm2 : (layoutOf p size).pbreak ≠ 0 := by
    rw [layout_pbreak_eq]
    omega
  have hmpos : 0 < (layoutOf p size).pbreak := by
    rw [layout_pbreak_eq]
    exact hm
  have hlen : (flatten p.cards).length = (layoutOf p size).total := flatten_length_total p
  refine ⟨emitList (layoutOf p size) 0 (flatten p.cards), ?_, ?_, ?_⟩
  · rw [pdf_gen, loopCards_ok _ hm2]
  · -- the count
    have hcount := emitList_countP_isMark (layoutOf p size) hmpos (flatten p.cards) 0
      (by rw [hlen]; omega)
    simp only [Nat.zero_add, Nat.zero_div] at hcount
    rw [hlen] at hcount
    rw [← List.countP_eq_length_filter, hcount, layout_pbreak_eq, layout_total_eq]
    have htt : (totalOf p = totalOf p ∧ 0 < totalOf p ∧ ¬ pbreakOf p size ∣ totalOf p) ↔
        ¬ pbreakOf p size ∣ totalOf p := by
      constructor
      · rintro ⟨-, -, h3⟩
        exact h3
      · intro h3
        exact ⟨rfl, hN, h3⟩
    rw [if_congr htt rfl rfl]
    by_cases hD : pbreakOf p size ∣ totalOf p
    · rw [if_neg (by intro hcon; exact hcon hD)]
      have := ceil_div_eq (pbreakOf p size) (totalOf p) hm hN
      rw [if_pos hD] at this
      omega
    · rw [if_pos hD]
      have := ceil_div_eq (pbreakOf p size) (totalOf p) hm hN
      rw [if_neg hD] at this
      omega
  · -- the ordering
    have hchain := emitList_chain_mark (layoutOf p size) hmpos (flatten p.cards) 0
      (by rw [hlen]; omega)
    intro k hk hmark
    by_cases hlast : k + 1 = (emitList (layoutOf p size) 0 (flatten p.cards)).length
    · exact Or.inl hlast
    · have hk2 : k + 1 < (emitList (layoutOf p size) 0 (flatten p.cards)).length := by omega
      refine Or.inr ⟨hk2, ?_⟩
      have := List.chain'_iff_get.1 hchain k (by omega)
      exact this hmark

/-- Witness for C3 at `wProj` on `wSize` (two cards, one per page). -/
theorem c3_markpage_events_witness :
    (0 < totalOf wProj ∧ 0 < pbreakOf wProj wSize) ∧
      ∃ es, pdf_gen wProj wSize = Except.ok es ∧
        (es.filter Event.isMark).length =
          (totalOf wProj + pbreakOf wProj wSize - 1) / pbreakOf wProj wSize ∧
        ∀ (k : ℕ) (hk : k < es.length), (es.get ⟨k, hk⟩).isMark = true →
          k + 1 = es.length ∨
            ∃ hk2 : k + 1 < es.length, es.get ⟨k + 1, hk2⟩ = Event.PageBreak :=
  ⟨⟨by decide, by decide⟩, c3_markpage_events wProj wSize (by decide) (by decide)⟩

/-- C4: with `N > 0` cards and `cards_per_page > 0`, the planner succeeds
and emits exactly `ceil(N / cards_per_page) - 1` `PageBreak` events; every
`PageBreak` is immediately followed by a `Place` (the first of the new
page), the first event of the run is a `Place` (no break before the first
page), and the last event is a mark emission, so no `PageBreak` ever
follows the last `Place`. -/
theorem c4_pagebreak_events (p : Project) (size : ℚ × ℚ)
    (hN : 0 < totalOf p) (hm : 0 < pbreakOf p size) :
    ∃ es, pdf_gen p size = Except.ok es ∧
      (es.filter Event.isBreak).length =
        (totalOf p + pbreakOf p size - 1) / pbreakOf p size - 1 ∧
      (∀ (k : ℕ) (hk : k + 1 < es.length), es.get ⟨k, by omega⟩ = Event.PageBreak →
        (es.get ⟨k + 1, hk⟩).isPlace = true) ∧
      es.getLast? = some (Event.MarkPage (gridPoints (layoutOf p size))) ∧
      (∃ e, es.head? = some e ∧ e.isPlace = true) := by
  have hm2 : (layoutOf p size).pbreak ≠ 0 := by
    rw [layout_pbreak_eq]
    omega
  have hlen : (flatten p.cards).length = (layoutOf p size).total := flatten_length_total p
  have hne : flatten p.cards ≠ [] := by
    intro hnil
    rw [hnil] at hlen
    simp only [List.length_nil] at hlen
    rw [layout_total_eq] at hlen
    omega
  refine ⟨emitList (layoutOf p size) 0 (flatten p.cards), ?_, ?_, ?_, ?_, ?_⟩
  · rw [pdf_gen, loopCards_ok _ hm2]
  · -- the count
    have hcount := emitList_countP_isBreak (layoutOf p size) (flatten p.cards) 0
    simp only [Nat.zero_add, Nat.zero_sub, Nat.zero_div] at hcount
    rw [hlen, layout_total_eq, layout_pbreak_eq] at hcount
    rw [← List.countP_eq_length_filter, hcount]
    have he : totalOf p + pbreakOf p size - 1 = (totalOf p - 1) + pbreakOf p size := by omega
    rw [he, Nat.add_div_right _ hm]
    omega
  · -- every break is immediately followed by a place
    have hchain := emitList_chain_break (layoutOf p size) (flatten p.cards) 0
    intro k hk hbrk
    exact List.chain'_iff_get.1 hchain k (by omega) hbrk
  · -- the run ends with a mark emission
    apply emitList_getLast_mark (layoutOf p size) (flatten p.cards) 0 hne
    rw [hlen]
    omega
  · -- the run starts with a place
    cases hfc : flatten p.cards with
    | nil => exact absurd hfc hne
    | cons a l2 =>
      exact ⟨placeEvt (layoutOf p size) 0 a, emitList_head_place (layoutOf p size) a l2, rfl⟩

/-- Witness for C4 at `wProj` on `wSize` (two cards, one per page, one
break). -/
theorem c4_pagebreak_events_witness :
    (0 < totalOf wProj ∧ 0 < pbreakOf wProj wSize) ∧
      ∃ es, pdf_gen wProj wSize = Except.ok es ∧
        (es.filter Event.isBreak).length =
          (totalOf wProj + pbreakOf wProj wSize - 1) / pbreakOf wProj wSize - 1 ∧
        (∀ (k : ℕ) (hk : k + 1 < es.length), es.get ⟨k, by omega⟩ = Event.PageBreak →
          (es.get ⟨k + 1, hk⟩).isPlace = true) ∧
        es.getLast? = some (Event.MarkPage (gridPoints (layoutOf wProj wSize))) ∧
        (∃ e, es.head? = some e ∧ e.isPlace = true) :=
  ⟨⟨by decide, by decide⟩, c4_pagebreak_events wProj wSize (by decide) (by decide)⟩

/-- C5: every mark emission in a successful run carries exactly the full
nominal intersection grid: the `(rows+1)*(cols+1)` pairwise-distinct
points `(margin_x + cx*CW, margin_y + cy*CH)` for `cx` in `0..cols` and
`cy` in `0..rows` — also on a partially filled final page, where the full
nominal grid is still emitted rather than being clipped to used cells. -/
theorem c5_mark_grid (p : Project) (size : ℚ × ℚ) (es : List Event)
    (h : pdf_gen p size = Except.ok es) (pts : List (ℚ × ℚ))
    (hmem : Event.MarkPage pts ∈ es) :
    pts = gridPoints (layoutOf p size) ∧
    pts.length = (rowsOf p size + 1) * (colsOf p size + 1) ∧
    pts.Nodup ∧
    ∀ q : ℚ × ℚ, q ∈ pts ↔ ∃ cx cy : ℕ, cx ≤ colsOf p size ∧ cy ≤ rowsOf p size ∧
      q = (rxOf p size + cardW * (cx : ℚ), ryOf p size + cardH * (cy : ℚ)) := by
  have hpts : pts = gridPoints (layoutOf p size) := by
    rcases pdf_gen_ok_cases p size es h with ⟨hf, rfl⟩ | ⟨hm, rfl⟩
    · simp at hmem
    · exact emitList_mark_mem (layoutOf p size) (flatten p.cards) 0 pts hmem
  subst hpts
  exact ⟨rfl, gridPoints_length (layoutOf p size), gridPoints_nodup (layoutOf p size),
    gridPoints_mem (layoutOf p size)⟩

/-- Witness for C5 at `wProj` on `wSize` with the first mark emission. -/
theorem c5_mark_grid_witness :
    (pdf_gen wProj wSize = Except.ok wEvents ∧ Event.MarkPage wGrid ∈ wEvents) ∧
      (wGrid = gridPoints (layoutOf wProj wSize) ∧
      wGrid.length = (rowsOf wProj wSize + 1) * (colsOf wProj wSize + 1) ∧
      wGrid.Nodup ∧
      ∀ q : ℚ × ℚ, q ∈ wGrid ↔ ∃ cx cy : ℕ, cx ≤ colsOf wProj wSize ∧ cy ≤ rowsOf wProj wSize ∧
        q = (rxOf wProj wSize + cardW * (cx : ℚ), ryOf wProj wSize + cardH * (cy : ℚ))) :=
  ⟨⟨by decide, by decide⟩, c5_mark_grid wProj wSize wEvents (by decide) wGrid (by decide)⟩

/-- C6: on a project with at least one card whose card size exceeds the
page size (`cards_per_page = 0`), `pdf_gen` stops before emitting any
event — but with an uncaught `ZeroDivisionError` from `divmod(i, 0)`, not
with the descriptive configuration error the claim requires. -/
theorem c6_zero_division :
    pbreakOf wBad wBadSize = 0 ∧ 0 < totalOf wBad ∧
      pdf_gen wBad wBadSize = Except.error PdfError.zeroDivision := by
  refine ⟨by decide, by decide, by decide⟩

/-- C7, counterexample: at the default arguments, all four strokes of
`draw_cross` carry the dash pattern `[s, s] = [1, 1]` — the black
horizontal and vertical strokes are dashed (the dash array set by
`setDash` is never cleared), not solid as the claim states. -/
theorem c7_counterexample :
    (draw_cross initCanvas 0 0 crossHalfDefault crossStrokeDefault).2.map
        (fun sg => (sg.color, sg.dash)) =
      [(white, ([1, 1], 0)), (black, ([1, 1], 0)), (white, ([1, 1], 1)), (black, ([1, 1], 1))] ∧
    (([1, 1], 0) : List ℚ × ℚ) ≠ solidDash := by
  refine ⟨by decide, by decide⟩

/-- C7 (amended): `draw_cross` draws exactly four stroked segments — the
vertical from `(x, y-c)` to `(x, y+c)` and the horizontal from `(x-c, y)`
to `(x+c, y)`, each twice — with stroke width `s`, in the draw order
white dashed vertical, black dashed horizontal, white dashed horizontal,
black dashed vertical; all four use dash array `[s, s]`, the first two
with phase 0 and the last two with phase `s`, so each axis ends up with
both a black and a white stroke overlaid. -/
theorem c7_draw_cross (st : CanvasState) (x y c s : ℚ) :
    (draw_cross st x y c s).2 =
      [ { x1 := x, y1 := y - c, x2 := x, y2 := y + c,
          color := white, width := s, dash := ([s, s], 0) },
        { x1 := x - c, y1 := y, x2 := x + c, y2 := y,
          color := black, width := s, dash := ([s, s], 0) },
        { x1 := x - c, y1 := y, x2 := x + c, y2 := y,
          color := white, width := s, dash := ([s, s], s) },
        { x1 := x, y1 := y - c, x2 := x, y2 := y + c,
          color := black, width := s, dash := ([s, s], s) } ] := rfl

/-- C8: whenever `cards_per_page > 0`, the computed cell of any running
index `i` satisfies `row < rows` and `col < cols`; the asserted-invariant
condition `row ≥ rows` or `col ≥ cols` is unreachable. -/
theorem c8_row_col_bounds (p : Project) (size : ℚ × ℚ)
    (hm : 0 < pbreakOf p size) (i : ℕ) :
    y_idx (layoutOf p size) i < rowsOf p size ∧ x_idx (layoutOf p size) i < colsOf p size := by
  have hcols : 0 < colsOf p size := cols_pos_of_pbreak_pos p size hm
  have hmb : 0 < (layoutOf p size).pbreak := by
    rw [layout_pbreak_eq]
    exact hm
  have hj : i % pbreakOf p size < pbreakOf p size := Nat.mod_lt _ hm
  constructor
  · rw [y_idx]
    rw [show (layoutOf p size).cols = colsOf p size from rfl,
      show (layoutOf p size).pbreak = pbreakOf p size from rfl,
      Nat.div_lt_iff_lt_mul hcols]
    exact lt_of_lt_of_le hj (le_of_eq (by rw [pbreakOf, Nat.mul_comm]))
  · exact Nat.mod_lt _ hcols

/-- Witness for C8 at `wProj` on `wSize`, running index 5. -/
theorem c8_row_col_bounds_witness :
    0 < pbreakOf wProj wSize ∧
      (y_idx (layoutOf wProj wSize) 5 < rowsOf wProj wSize ∧
        x_idx (layoutOf wProj wSize) 5 < colsOf wProj wSize) :=
  ⟨by decide, c8_row_col_bounds wProj wSize (by decide) 5⟩

/-- C9: a project whose counts sum to zero (in particular the empty
mapping) raises no error and produces no event at all — the loop body
never runs, so even a degenerate `cards_per_page = 0` geometry is not
touched. -/
theorem c9_empty_project (p : Project) (size : ℚ × ℚ) (h : totalOf p = 0) :
    pdf_gen p size = Except.ok [] := by
  rw [pdf_gen, flatten_nil_of_total_zero p h]
  rfl

/-- Witness for C9: all-zero counts on a page smaller than a card. -/
theorem c9_empty_project_witness :
    totalOf wZero = 0 ∧ pdf_gen wZero wBadSize = Except.ok [] :=
  ⟨by decide, c9_empty_project wZero wBadSize (by decide)⟩

/-- C10: entries with repeat count 0 are transparent: `pdf_gen` returns
the identical result (same events, or same error) when they are removed
from the cards mapping. -/
theorem c10_zero_counts_transparent (p : Project) (size : ℚ × ℚ) :
    pdf_gen p size = pdf_gen { p with cards := p.cards.filter fun c => c.2 != 0 } size := by
  rw [pdf_gen, pdf_gen, layoutOf_filter]
  have hcards : ({ p with cards := p.cards.filter fun c => c.2 != 0 } : Project).cards =
      p.cards.filter fun c => c.2 != 0 := rfl
  rw [hcards, flatten_filter_ne_zero]

end ClaimTheorems
